import Mathlib

/-!
Verification of the MDP-GapE planner
(`rl_agents/agents/tree_search/mdp_gape.py`).

The development shallowly embeds the planner's data model and operations:
node statistics use `ℚ` for reward/value bounds, children mappings are
association lists (Python dicts preserve insertion order), Python's
built-in `min`/`max` with a key function is embedded as the first element
attaining the extremal key, and the confidence-bound oracle
(`max_expectation_under_constraint`, from `rl_agents.utils`, outside the
embedded file) is kept abstract as a function parameter.
-/

/-! ### Python `min` / `max` with a key function

`max(xs, key=f)` in Python returns the first element of `xs` whose key is
maximal (the running maximum is replaced only on a strict increase).  We
embed it as the first element whose key dominates every key in the list;
`pyMinBy` is the symmetric embedding of `min(xs, key=f)`. -/

def pyMaxBy {α β : Type*} [LinearOrder β] (key : α → β) (l : List α) : Option α :=
  l.find? (fun x => l.all (fun y => key y ≤ key x))

def pyMinBy {α β : Type*} [LinearOrder β] (key : α → β) (l : List α) : Option α :=
  l.find? (fun x => l.all (fun y => key x ≤ key y))

section PyMinMax

variable {α β : Type*} [LinearOrder β] {key : α → β} {l : List α} {x : α}

theorem exists_max_key (hne : l ≠ []) : ∃ m ∈ l, ∀ y ∈ l, key y ≤ key m := by
  induction l with
  | nil => exact absurd rfl hne
  | cons a t ih =>
    rcases t.eq_nil_or_concat with rfl | ⟨_, _, rfl⟩
    · exact ⟨a, List.mem_singleton_self a, by simp⟩
    · obtain ⟨m, hm, hmax⟩ := ih (by simp)
      rcases le_total (key m) (key a) with h | h
      · exact ⟨a, List.mem_cons_self a _, by
          intro y hy
          rcases List.mem_cons.mp hy with rfl | hy
          · exact le_refl _
          · exact (hmax y hy).trans h⟩
      · exact ⟨m, List.mem_cons_of_mem _ hm, by
          intro y hy
          rcases List.mem_cons.mp hy with rfl | hy
          · exact h
          · exact hmax y hy⟩

theorem exists_min_key (hne : l ≠ []) : ∃ m ∈ l, ∀ y ∈ l, key m ≤ key y := by
  obtain ⟨m, hm, hmax⟩ :=
    @exists_max_key α (OrderDual β) _ (fun a => OrderDual.toDual (key a)) l hne
  exact ⟨m, hm, fun y hy => hmax y hy⟩

theorem pyMaxBy_isSome (hne : l ≠ []) : (pyMaxBy key l).isSome := by
  obtain ⟨m, hm, hmax⟩ := @exists_max_key α β _ key l hne
  exact List.find?_isSome.mpr ⟨m, hm, by simpa [List.all_eq_true] using hmax⟩

theorem pyMinBy_isSome (hne : l ≠ []) : (pyMinBy key l).isSome := by
  obtain ⟨m, hm, hmin⟩ := @exists_min_key α β _ key l hne
  exact List.find?_isSome.mpr ⟨m, hm, by simpa [List.all_eq_true] using hmin⟩

theorem pyMaxBy_mem (h : pyMaxBy key l = some x) : x ∈ l :=
  List.mem_of_find?_eq_some h

theorem pyMinBy_mem (h : pyMinBy key l = some x) : x ∈ l :=
  List.mem_of_find?_eq_some h

theorem pyMaxBy_le (h : pyMaxBy key l = some x) : ∀ y ∈ l, key y ≤ key x := by
  have := List.find?_some h
  simpa [List.all_eq_true] using this

theorem pyMinBy_le (h : pyMinBy key l = some x) : ∀ y ∈ l, key x ≤ key y := by
  have := List.find?_some h
  simpa [List.all_eq_true] using this

theorem find?_cons_eq_ite (p : α → Bool) (a : α) (t : List α) :
    (a :: t).find? p = if p a then some a else t.find? p := by
  rw [List.find?_cons]; split <;> simp_all

/-- A `find?` hit splits the list, with the predicate false on the prefix. -/
theorem find?_split {p : α → Bool} :
    ∀ {l : List α}, l.find? p = some x →
      ∃ pre post, l = pre ++ x :: post ∧ ∀ y ∈ pre, p y = false := by
  intro l
  induction l with
  | nil => intro h; simp [List.find?] at h
  | cons a t ih =>
    intro h
    rw [find?_cons_eq_ite] at h
    by_cases hpa : p a
    · rw [if_pos hpa] at h
      obtain rfl : a = x := by injection h
      exact ⟨[], t, rfl, by simp⟩
    · rw [if_neg hpa] at h
      obtain ⟨pre, post, hsplit, hpre⟩ := ih h
      refine ⟨a :: pre, post, by simp [hsplit], ?_⟩
      intro y hy
      rcases List.mem_cons.mp hy with rfl | hy
      · simpa using hpa
      · exact hpre y hy

/-- Python `max` returns the *first* element attaining the maximal key:
every element strictly before the winner has a strictly smaller key. -/
theorem pyMaxBy_first (h : pyMaxBy key l = some x) :
    ∃ pre post, l = pre ++ x :: post ∧ ∀ y ∈ pre, key y < key x := by
  obtain ⟨pre, post, hsplit, hpre⟩ := find?_split h
  refine ⟨pre, post, hsplit, fun y hy => ?_⟩
  have hymem : y ∈ l := hsplit ▸ List.mem_append_left _ hy
  have hyle : key y ≤ key x := pyMaxBy_le h y hymem
  rcases lt_or_eq_of_le hyle with hlt | heq
  · exact hlt
  · exfalso
    have : l.all (fun z => key z ≤ key y) = true := by
      simp only [List.all_eq_true]
      intro z hz
      exact decide_eq_true ((pyMaxBy_le h z hz).trans heq.ge)
    simpa [this] using hpre y hy

end PyMinMax

/-! ### Running maxima (`np.amax`, and the gap-accumulation loop)

`np.amax([...])` over a nonempty list, and loops of the form
`acc = max(acc, f(x))`, are embedded as `List.foldl` with `max`. -/

section FoldlMax

variable {α β : Type*} [LinearOrder β] (f : α → β)

theorem foldl_max_init_mono :
    ∀ (l : List α) {a b : β}, a ≤ b →
      l.foldl (fun m x => max m (f x)) a ≤ l.foldl (fun m x => max m (f x)) b := by
  intro l
  induction l with
  | nil => intro a b h; simpa using h
  | cons c t ih =>
    intro a b h
    exact ih (max_le_max h (le_refl (f c)))

theorem le_foldl_max (l : List α) (a : β) : a ≤ l.foldl (fun m x => max m (f x)) a := by
  induction l generalizing a with
  | nil => simp
  | cons c t ih =>
    calc a ≤ max a (f c) := le_max_left _ _
    _ ≤ t.foldl (fun m x => max m (f x)) (max a (f c)) := ih _

theorem foldl_max_le_of_mem {l : List α} {x : α} (hx : x ∈ l) (a : β) :
    f x ≤ l.foldl (fun m x => max m (f x)) a := by
  induction l generalizing a with
  | nil => simp at hx
  | cons c t ih =>
    rcases List.mem_cons.mp hx with rfl | hx
    · calc f x ≤ max a (f x) := le_max_right _ _
      _ ≤ t.foldl (fun m y => max m (f y)) (max a (f x)) := le_foldl_max _ _ _
    · exact ih hx (max a (f c))

theorem foldl_max_mem (l : List α) (a : β) :
    l.foldl (fun m x => max m (f x)) a ∈ a :: l.map f := by
  induction l generalizing a with
  | nil => simp
  | cons c t ih =>
    rw [List.foldl_cons]
    have h := ih (max a (f c))
    simp only [List.map_cons, List.mem_cons] at h ⊢
    rcases h with h | h
    · rcases max_choice a (f c) with hm | hm
      · left; rw [h, hm]
      · right; left; rw [h, hm]
    · right; right; exact h

theorem foldl_max_le_foldl_max {f g : α → β} {l : List α}
    (hfg : ∀ x ∈ l, f x ≤ g x) {a b : β} (hab : a ≤ b) :
    l.foldl (fun m x => max m (f x)) a ≤ l.foldl (fun m x => max m (g x)) b := by
  induction l generalizing a b with
  | nil => simpa using hab
  | cons c t ih =>
    exact ih (fun x hx => hfg x (List.mem_cons_of_mem _ hx))
      (max_le_max hab (hfg c (List.mem_cons_self _ _)))

end FoldlMax

/-! ### Dot products over `List ℚ` (`p @ v` on numpy arrays) -/

def dot (p v : List ℚ) : ℚ := (List.zipWith (· * ·) p v).sum

theorem dot_nil_left (v : List ℚ) : dot [] v = 0 := rfl

theorem dot_cons (a b : ℚ) (p v : List ℚ) :
    dot (a :: p) (b :: v) = a * b + dot p v := by
  simp [dot, List.zipWith]

/-- Monotonicity of the dot product in its second argument, for lists of
targets indexed by the same children list, under nonnegative weights. -/
theorem dot_map_le_dot_map {σ : Type*} (children : List σ) (w f g : σ → ℚ)
    (hw : ∀ c ∈ children, 0 ≤ w c) (hfg : ∀ c ∈ children, f c ≤ g c) :
    dot (children.map w) (children.map f) ≤ dot (children.map w) (children.map g) := by
  induction children with
  | nil => simp [dot]
  | cons c t ih =>
    simp only [List.map_cons, dot_cons]
    have h1 : w c * f c ≤ w c * g c :=
      mul_le_mul_of_nonneg_left (hfg c (List.mem_cons_self _ _)) (hw c (List.mem_cons_self _ _))
    have h2 := ih (fun x hx => hw x (List.mem_cons_of_mem _ hx))
      (fun x hx => hfg x (List.mem_cons_of_mem _ hx))
    exact add_le_add h1 h2

/-! ### Association-list lookup (Python `dict` access, insertion-ordered) -/

def lookupKey {κ β : Type*} [DecidableEq κ] (k : κ) (l : List (κ × β)) : Option β :=
  (l.find? (fun p => p.1 = k)).map Prod.snd

section LookupKey

variable {κ β : Type*} [DecidableEq κ]

theorem lookupKey_nil (k : κ) : lookupKey k ([] : List (κ × β)) = none := rfl

theorem lookupKey_cons (k : κ) (a : κ × β) (t : List (κ × β)) :
    lookupKey k (a :: t) = if a.1 = k then some a.2 else lookupKey k t := by
  simp only [lookupKey, find?_cons_eq_ite]
  by_cases h : a.1 = k <;> simp [h]

theorem lookupKey_isSome_iff {k : κ} {l : List (κ × β)} :
    (lookupKey k l).isSome ↔ ∃ b, (k, b) ∈ l := by
  induction l with
  | nil => simp [lookupKey_nil]
  | cons a t ih =>
    rw [lookupKey_cons]
    by_cases h : a.1 = k
    · simp only [if_pos h, Option.isSome_some, true_iff]
      exact ⟨a.2, by rw [← h]; simp⟩
    · simp only [if_neg h, ih, List.mem_cons]
      constructor
      · rintro ⟨b, hb⟩; exact ⟨b, Or.inr hb⟩
      · rintro ⟨b, hb | hb⟩
        · exact absurd (congrArg Prod.fst hb).symm h
        · exact ⟨b, hb⟩

theorem lookupKey_eq_some_mem {k : κ} {l : List (κ × β)} {b : β}
    (h : lookupKey k l = some b) : (k, b) ∈ l := by
  induction l with
  | nil => simp [lookupKey_nil] at h
  | cons a t ih =>
    rw [lookupKey_cons] at h
    by_cases ha : a.1 = k
    · rw [if_pos ha] at h
      obtain rfl : a.2 = b := by injection h
      have heq : (k, a.2) = a := by rw [← ha]
      rw [heq]
      exact List.mem_cons_self _ _
    · rw [if_neg ha] at h
      exact List.mem_cons_of_mem _ (ih h)

end LookupKey

/-! ### Data model

Reward and value statistics are embedded over `ℚ`.  A node's children form
an association list (Python dicts preserve insertion order).  At a decision
node the children `values()` are distinct `ChanceNode` objects; object
identity (`is` / `is not` in the source) is modelled by pairing each child
with its position index. -/

structure Bounds where
  value : ℚ
  value_lower : ℚ
deriving DecidableEq

structure ChildStats where
  mu_ucb : ℚ
  mu_lcb : ℚ
  value : ℚ
  value_lower : ℚ
  count : ℕ
deriving DecidableEq

/-- Initial upper value bound of a freshly constructed node:
`(1 - gamma ** (H - depth)) / (1 - gamma)` (both `DecisionNode.__init__`
and `ChanceNode.__init__`, the latter with `depth = parent.depth`). -/
def node_init_value (gamma : ℚ) (horizon depth : ℕ) : ℚ :=
  (1 - gamma ^ (horizon - depth)) / (1 - gamma)

/-- Initial lower value bound of a freshly constructed node (`value_lower = 0`). -/
def node_init_value_lower : ℚ := 0

/-! ### `DecisionNode` operations -/

/-- `DecisionNode.expand`: one `ChanceNode` per available action, inserted in
enumeration order.  The fresh child object is modelled by its action id. -/
def DecisionNode.expand (actions : List ℕ) : List (ℕ × ℕ) :=
  actions.map (fun a => (a, a))

/-- `DecisionNode.get_child(action, state)`: expand first if childless, then
silently fall back to the first available action when `action` is absent;
returns `(child, action actually used)`.  `none` only when even expansion
produced no children (Python would raise an `IndexError` on `[0]`). -/
def DecisionNode.get_child (children : List (ℕ × ℕ)) (actions : List ℕ) (action : ℕ) :
    Option (ℕ × ℕ) :=
  let cs := if children.isEmpty then DecisionNode.expand actions else children
  match lookupKey action cs with
  | some node => some (node, action)
  | none =>
    match cs with
    | [] => none
    | (a0, n0) :: _ => some (n0, a0)

/-- Inner loop of `DecisionNode.compute_children_gaps`: starting from
`-np.infty`, fold `max(gap, other.value - child.value_lower)` over the other
children. -/
def DecisionNode.child_gap (others : List (ℕ × Bounds)) (c : Bounds) : WithBot ℚ :=
  others.foldl (fun g o => max g ((o.2.value - c.value_lower : ℚ) : WithBot ℚ)) ⊥

/-- `DecisionNode.compute_children_gaps`: annotate every child with its gap,
the others being all children that are not (`is not`) this child. -/
def DecisionNode.compute_children_gaps (children : List (ℕ × Bounds)) :
    List ((ℕ × Bounds) × WithBot ℚ) :=
  children.map
    (fun c => (c, DecisionNode.child_gap (children.filter (fun o => o.1 ≠ c.1)) c.2))

/-- `DecisionNode.best_arm_identification_selection`: best candidate =
`min` by gap, challenger = `max` by upper value among the non-best children,
selected arm = `max` by interval width among `[best, challenger]`;
returns `(selected, best, challenger)`. -/
def DecisionNode.best_arm_identification_selection (children : List (ℕ × Bounds)) :
    Option ((ℕ × Bounds) × (ℕ × Bounds) × (ℕ × Bounds)) :=
  let gaps := DecisionNode.compute_children_gaps children
  match pyMinBy (fun g => g.2) gaps with
  | none => none
  | some b =>
    match pyMaxBy (fun c => c.2.value) (children.filter (fun c => c.1 ≠ b.1.1)) with
    | none => none
    | some challenger =>
      match pyMaxBy (fun n => n.2.value - n.2.value_lower) [b.1, challenger] with
      | none => none
      | some selected => some (selected, b.1, challenger)

/-- `DecisionNode.backup_to_root`, local step: Bellman max over the children's
upper and lower values (`np.amax`, independently per bound); `(0, 0)` for a
childless node (one at maximal depth). -/
def DecisionNode.backup (children : List Bounds) : Bounds :=
  match children with
  | [] => ⟨0, 0⟩
  | c :: cs =>
    ⟨cs.foldl (fun m x => max m x.value) c.value,
     cs.foldl (fun m x => max m x.value_lower) c.value_lower⟩

structure DecisionNodeState where
  count : ℕ
  cumulative_reward : ℚ
  value : ℚ
  value_lower : ℚ
deriving DecidableEq

/-- Modelled from the spec: `OLOPNode.update` (defined in the `olop` module,
which is not part of the embedded file) records one simulated visit; per the
spec a visit mutates only the visitation statistics (`count` and
`cumulative_reward`) — value bounds change only through backups. -/
def DecisionNode.update (n : DecisionNodeState) (reward : ℚ) : DecisionNodeState :=
  { n with count := n.count + 1, cumulative_reward := n.cumulative_reward + reward }

/-! ### `ChanceNode` operations -/

structure ChanceNodeState where
  count : ℕ
  value : ℚ
  value_lower : ℚ
  depth : ℕ
  p_hat : Option (List ℚ)
  p_plus : Option (List ℚ)
  p_minus : Option (List ℚ)
  parent : Option ℕ
  children : List (String × ℕ)
deriving DecidableEq

/-- `ChanceNode.update(reward, done)`: `self.count += 1` and nothing else
(a chance node holds no reward statistic; `cumulative_reward` was removed
by `delattr` at construction, hence the structure has no such field). -/
def ChanceNode.update (n : ChanceNodeState) (reward : ℚ) (done : Bool) : ChanceNodeState :=
  { n with count := n.count + 1 }

/-- Children keys of a chance node: reserved placeholder slots
(`"placeholder_{i}"`) or the string identity of an observed next state. -/
inductive CKey where
  | placeholder (i : ℕ)
  | state (id : String)
deriving DecidableEq

/-- `ChanceNode.expand`: reserve `max_next_states_count` placeholder slots;
the fresh `DecisionNode` objects are modelled by their slot index. -/
def ChanceNode.expand (K : ℕ) : List (CKey × ℕ) :=
  (List.range K).map (fun i => (CKey.placeholder i, i))

/-- Loop `for i in range(K): if "placeholder_<i>" in children: ... break`
of `ChanceNode.get_child`: the first listed index whose placeholder key is
still present, together with that slot's node. -/
def ChanceNode.firstPlaceholder (children : List (CKey × ℕ)) : List ℕ → Option (ℕ × ℕ)
  | [] => none
  | i :: rest =>
    match lookupKey (CKey.placeholder i) children with
    | some node => some (i, node)
    | none => ChanceNode.firstPlaceholder children rest

/-- `ChanceNode.get_child(observation)` (with `hash=False`, the default):
expand if childless; reuse the child keyed by the observation's identity;
otherwise re-key the first remaining placeholder slot (`dict.pop` followed
by insertion appends the re-keyed entry); raise `ValueError` when the
identity is novel and no placeholder remains. -/
def ChanceNode.get_child (K : ℕ) (children : List (CKey × ℕ)) (sid : String) :
    Except String (List (CKey × ℕ) × ℕ) :=
  let cs := if children.isEmpty then ChanceNode.expand K else children
  match lookupKey (CKey.state sid) cs with
  | some node => .ok (cs, node)
  | none =>
    match ChanceNode.firstPlaceholder cs (List.range K) with
    | some (i, node) =>
      .ok (cs.filter (fun p => p.1 ≠ CKey.placeholder i) ++ [(CKey.state sid, node)], node)
    | none =>
      .error "No more placeholder nodes available, we observed more next states than the max_next_states_count config"

/-- Number of still-reserved placeholder slots of a chance node. -/
def ChanceNode.nPlaceholders (children : List (CKey × ℕ)) : ℕ :=
  children.countP (fun p => match p.1 with | CKey.placeholder _ => true | _ => false)

/-- Upper backup targets `u_i = child.mu_ucb + gamma * child.value`
(`ChanceNode.backup_to_root`). -/
def ChanceNode.uTargets (gamma : ℚ) (children : List ChildStats) : List ℚ :=
  children.map (fun c => c.mu_ucb + gamma * c.value)

/-- Lower backup targets `l_i = child.mu_lcb + gamma * child.value_lower`. -/
def ChanceNode.lTargets (gamma : ℚ) (children : List ChildStats) : List ℚ :=
  children.map (fun c => c.mu_lcb + gamma * c.value_lower)

/-- Empirical transition distribution `p_hat = counts / count`. -/
def ChanceNode.pHat (count : ℕ) (children : List ChildStats) : List ℚ :=
  children.map (fun c => (c.count : ℚ) / count)

structure ChanceBackup where
  value : ℚ
  value_lower : ℚ
  p_hat : List ℚ
  p_plus : List ℚ
  p_minus : List ℚ

/-- `ChanceNode.backup_to_root`, local step.  The constrained-optimization
solver `max_expectation_under_constraint` (from `rl_agents.utils`, outside
the embedded file) is the abstract `oracle` argument; `tau` is the value of
the configured `transition_threshold` expression. -/
def ChanceNode.backup (oracle : List ℚ → List ℚ → ℚ → List ℚ) (gamma tau : ℚ)
    (count : ℕ) (children : List ChildStats) : ChanceBackup :=
  let u := ChanceNode.uTargets gamma children
  let l := ChanceNode.lTargets gamma children
  let ph := ChanceNode.pHat count children
  let threshold := tau / count
  let pp := oracle u ph threshold
  let pm := oracle (l.map (fun x => -x)) ph threshold
  ⟨dot pp u, dot pm l, ph, pp, pm⟩

/-! ### The backup recursion

`backup_to_root` walks from the updated leaf to the root; each ancestor
recomputes its bounds from all of its children, of which exactly one (the
node on the walked path) has just been updated.  A `BackupFrame` stores an
ancestor's other data: its siblings-of-the-updated-child split into the
entries before and after it, plus, for a chance node, the updated child's
unchanged reward-bound statistics and the node's own count and threshold. -/

inductive BackupFrame where
  | chance (pre post : List ChildStats) (mu_ucb mu_lcb : ℚ) (childCount : ℕ)
      (count : ℕ) (tau : ℚ)
  | decision (pre post : List Bounds)

def applyBackupFrame (oracle : List ℚ → List ℚ → ℚ → List ℚ) (gamma : ℚ)
    (v : Bounds) : BackupFrame → Bounds
  | .chance pre post muU muL childCount count tau =>
    let r := ChanceNode.backup oracle gamma tau count
      (pre ++ ⟨muU, muL, v.value, v.value_lower, childCount⟩ :: post)
    ⟨r.value, r.value_lower⟩
  | .decision pre post =>
    DecisionNode.backup (pre ++ v :: post)

/-- The full recursion: starting from the freshly backed-up bounds `v` of the
current node, update every ancestor on the way to the root, returning the
updated bounds of each of them (leaf side first). -/
def backup_to_root (oracle : List ℚ → List ℚ → ℚ → List ℚ) (gamma : ℚ)
    (v : Bounds) : List BackupFrame → List Bounds
  | [] => []
  | f :: fs =>
    let v' := applyBackupFrame oracle gamma v f
    v' :: backup_to_root oracle gamma v' fs

/-! ### Planner (`MDPGapE`) orchestration -/

/-- One iteration of `MDPGapE.plan`'s `while not done` loop, in fuel-passing
form.  `stop e` abstracts whether, after the episode with 0-based index `e`,
the root produced a best candidate and challenger with
`challenger.value - best.value_lower < accuracy`.  The budget check of the
source compares the *pre-increment* counter: `done = done or episode >
episodes` runs before `episode += 1`.  Returns the number of simulated
episodes. -/
def MDPGapE.planLoop (episodes : ℕ) (stop : ℕ → Bool) : ℕ → ℕ → ℕ
  | 0, _ => 0
  | fuel + 1, episode =>
    1 + (if stop episode || decide (episodes < episode) then 0
         else MDPGapE.planLoop episodes stop fuel (episode + 1))

/-- Total number of simulated episodes of `MDPGapE.plan`.  Fuel
`episodes + 2` is exact: the check `episode > episodes` is first true at
`episode = episodes + 1`, i.e. after the `(episodes + 2)`-th call to `run`. -/
def MDPGapE.planEpisodes (episodes : ℕ) (stop : ℕ → Bool) : ℕ :=
  MDPGapE.planLoop episodes stop (episodes + 2) 0

/-- `MDPGapE.get_plan`: only the first action of the recommended plan —
the best candidate's action at the root, recomputed by `selection_rule`
via `best_arm_identification_selection` and `next(best_node.path())`
(in this embedding a root child's first path action is its key). -/
def MDPGapE.get_plan (children : List (ℕ × Bounds)) : Option (List ℕ) :=
  (DecisionNode.best_arm_identification_selection children).map (fun r => [r.2.1.1])

/-- `MDPGapE.allocate_budget`, branch `horizon_from_accuracy = True`, after
the horizon has been computed: `episodes = budget // horizon`, then
`assert episodes > 1`. -/
def MDPGapE.allocate_budget (budget horizon : ℕ) : Except String (ℕ × ℕ) :=
  let episodes := budget / horizon
  if 1 < episodes then .ok (horizon, episodes)
  else .error "assertion failed: episodes > 1"

/-- Horizon derived from the target accuracy
(`np.ceil(np.log(accuracy * (1 - gamma) / 2) / np.log(gamma))`, floating
point modelled over `ℝ`). -/
noncomputable def MDPGapE.horizon_from_accuracy (accuracy gamma : ℝ) : ℤ :=
  ⌈Real.log (accuracy * (1 - gamma) / 2) / Real.log gamma⌉

/-- The full `horizon_from_accuracy = True` branch of
`MDPGapE.allocate_budget`. -/
noncomputable def MDPGapE.allocate_budget_from_accuracy (accuracy gamma : ℝ)
    (budget : ℕ) : Except String (ℕ × ℕ) :=
  MDPGapE.allocate_budget budget (MDPGapE.horizon_from_accuracy accuracy gamma).toNat

/-- Non-root action selection in `MDPGapE.run`:
`action, _ = max(state_node.children.items(), key=lambda c: c[1].value)` —
Python `max`, so the first maximal entry in insertion order. -/
def MDPGapE.ucb_action (children : List (ℕ × Bounds)) : Option ℕ :=
  (pyMaxBy (fun c => c.2.value) children).map Prod.fst

/-! ### Auxiliary lemmas shared by the claim theorems -/

theorem getD_map_of_lt {α β : Type*} (f : α → β) (da : α) (db : β) :
    ∀ (l : List α) (i : ℕ), i < l.length → (l.map f).getD i db = f (l.getD i da) := by
  intro l
  induction l with
  | nil => intro i hi; simp at hi
  | cons a t ih =>
    intro i hi
    cases i with
    | zero => rfl
    | succ n =>
      simp only [List.map_cons, List.getD]
      simpa using ih n (by simpa using hi)

theorem backup_to_root_length (oracle : List ℚ → List ℚ → ℚ → List ℚ) (gamma : ℚ) :
    ∀ (v : Bounds) (fs : List BackupFrame),
      (backup_to_root oracle gamma v fs).length = fs.length := by
  intro v fs
  induction fs generalizing v with
  | nil => rfl
  | cons f t ih => simp [backup_to_root, ih]

/-! ### C9 — `ChanceNode.update` frame property -/

/-- C9: for every chance node and any `(reward, done)` arguments, `update`
increments `count` by exactly one and changes no other field of the node;
the arguments are ignored entirely (no reward statistic is accumulated on
the chance node, which has no reward field at all). -/
theorem chance_update_frame (n : ChanceNodeState) (reward : ℚ) (done : Bool) :
    (ChanceNode.update n reward done).count = n.count + 1 ∧
    (ChanceNode.update n reward done).value = n.value ∧
    (ChanceNode.update n reward done).value_lower = n.value_lower ∧
    (ChanceNode.update n reward done).p_hat = n.p_hat ∧
    (ChanceNode.update n reward done).p_plus = n.p_plus ∧
    (ChanceNode.update n reward done).p_minus = n.p_minus ∧
    (ChanceNode.update n reward done).depth = n.depth ∧
    (ChanceNode.update n reward done).parent = n.parent ∧
    (ChanceNode.update n reward done).children = n.children ∧
    (∀ (r' : ℚ) (d' : Bool), ChanceNode.update n reward done = ChanceNode.update n r' d') :=
  ⟨rfl, rfl, rfl, rfl, rfl, rfl, rfl, rfl, rfl, fun _ _ => rfl⟩

/-! ### C3 — `DecisionNode.backup_to_root` -/

/-- C3: a decision node with children backs up to the maximum of the
children's `value` and, independently, the maximum of their `value_lower`
(each maximum is attained by and dominates the children); a childless node
(one at maximal horizon depth) backs up to `(0, 0)`; the toy instance
`(0.8, 0.2), (0.6, 0.4)` backs up to `(0.8, 0.4)`; and the backup recursion
updates every ancestor up to the root. -/
theorem decision_backup_to_root_spec :
    (∀ (children : List Bounds), children ≠ [] →
      ((DecisionNode.backup children).value ∈ children.map Bounds.value ∧
       (∀ c ∈ children, c.value ≤ (DecisionNode.backup children).value) ∧
       (DecisionNode.backup children).value_lower ∈ children.map Bounds.value_lower ∧
       (∀ c ∈ children, c.value_lower ≤ (DecisionNode.backup children).value_lower))) ∧
    DecisionNode.backup [] = ⟨0, 0⟩ ∧
    DecisionNode.backup [⟨0.8, 0.2⟩, ⟨0.6, 0.4⟩] = ⟨0.8, 0.4⟩ ∧
    (∀ oracle gamma v fs, (backup_to_root oracle gamma v fs).length = fs.length) := by
  refine ⟨?_, rfl, ?_, fun oracle gamma v fs => backup_to_root_length oracle gamma v fs⟩
  · intro children hne
    match children with
    | [] => exact absurd rfl hne
    | c :: cs =>
      simp only [DecisionNode.backup]
      refine ⟨?_, ?_, ?_, ?_⟩
      · simpa using foldl_max_mem Bounds.value cs c.value
      · intro x hx
        rcases List.mem_cons.mp hx with rfl | hx
        · exact le_foldl_max Bounds.value cs x.value
        · exact foldl_max_le_of_mem Bounds.value hx c.value
      · simpa using foldl_max_mem Bounds.value_lower cs c.value_lower
      · intro x hx
        rcases List.mem_cons.mp hx with rfl | hx
        · exact le_foldl_max Bounds.value_lower cs x.value_lower
        · exact foldl_max_le_of_mem Bounds.value_lower hx c.value_lower
  · simp only [DecisionNode.backup, List.foldl]
    norm_num [max_def]

/-- Witness for C3 at a concrete two-child node. -/
theorem decision_backup_to_root_spec_witness :
    (([⟨2, 1⟩, ⟨0, 0⟩] : List Bounds) ≠ []) ∧
    ((DecisionNode.backup [⟨2, 1⟩, ⟨0, 0⟩]).value ∈
        ([⟨2, 1⟩, ⟨0, 0⟩] : List Bounds).map Bounds.value ∧
     (∀ c ∈ ([⟨2, 1⟩, ⟨0, 0⟩] : List Bounds),
        c.value ≤ (DecisionNode.backup [⟨2, 1⟩, ⟨0, 0⟩]).value) ∧
     (DecisionNode.backup [⟨2, 1⟩, ⟨0, 0⟩]).value_lower ∈
        ([⟨2, 1⟩, ⟨0, 0⟩] : List Bounds).map Bounds.value_lower ∧
     (∀ c ∈ ([⟨2, 1⟩, ⟨0, 0⟩] : List Bounds),
        c.value_lower ≤ (DecisionNode.backup [⟨2, 1⟩, ⟨0, 0⟩]).value_lower)) :=
  ⟨by simp, decision_backup_to_root_spec.1 _ (by simp)⟩

/-! ### C2 — `ChanceNode.backup_to_root` -/

/-- C2: for a chance node with at least one child (and, having a parent, its
backup continues to the root), the backup forms upper targets
`u_i = mu_ucb_i + gamma * value_i`, lower targets
`l_i = mu_lcb_i + gamma * value_lower_i` and the empirical distribution
`p_hat_i = count_i / count`; `p_plus` is the oracle's distribution for
targets `u` at divergence `transition_threshold / count`, `p_minus` the
oracle's distribution for targets `-l`; the new bounds are the dot products
`p_plus · u` and `p_minus · l`; and the recursion updates every ancestor up
to the root unconditionally. -/
theorem chance_backup_to_root_spec (oracle : List ℚ → List ℚ → ℚ → List ℚ)
    (gamma tau : ℚ) (count : ℕ) (children : List ChildStats)
    (hne : children ≠ []) :
    (∀ i, i < children.length →
      ((ChanceNode.backup oracle gamma tau count children).p_hat.getD i 0 =
        ((children.getD i ⟨0, 0, 0, 0, 0⟩).count : ℚ) / count ∧
       (ChanceNode.uTargets gamma children).getD i 0 =
        (children.getD i ⟨0, 0, 0, 0, 0⟩).mu_ucb +
          gamma * (children.getD i ⟨0, 0, 0, 0, 0⟩).value ∧
       (ChanceNode.lTargets gamma children).getD i 0 =
        (children.getD i ⟨0, 0, 0, 0, 0⟩).mu_lcb +
          gamma * (children.getD i ⟨0, 0, 0, 0, 0⟩).value_lower)) ∧
    (ChanceNode.backup oracle gamma tau count children).p_plus =
      oracle (ChanceNode.uTargets gamma children) (ChanceNode.pHat count children)
        (tau / count) ∧
    (ChanceNode.backup oracle gamma tau count children).p_minus =
      oracle ((ChanceNode.lTargets gamma children).map (fun x => -x))
        (ChanceNode.pHat count children) (tau / count) ∧
    (ChanceNode.backup oracle gamma tau count children).value =
      dot ((ChanceNode.backup oracle gamma tau count children).p_plus)
        (ChanceNode.uTargets gamma children) ∧
    (ChanceNode.backup oracle gamma tau count children).value_lower =
      dot ((ChanceNode.backup oracle gamma tau count children).p_minus)
        (ChanceNode.lTargets gamma children) ∧
    (∀ v fs, (backup_to_root oracle gamma v fs).length = fs.length) := by
  refine ⟨?_, rfl, rfl, rfl, rfl, fun v fs => backup_to_root_length oracle gamma v fs⟩
  intro i hi
  refine ⟨?_, ?_, ?_⟩
  · exact getD_map_of_lt (fun c => (c.count : ℚ) / count) ⟨0, 0, 0, 0, 0⟩ 0 children i hi
  · exact getD_map_of_lt (fun c => c.mu_ucb + gamma * c.value) ⟨0, 0, 0, 0, 0⟩ 0 children i hi
  · exact getD_map_of_lt (fun c => c.mu_lcb + gamma * c.value_lower) ⟨0, 0, 0, 0, 0⟩ 0
      children i hi

/-- Witness for C2 at a concrete one-child chance node. -/
theorem chance_backup_to_root_spec_witness :
    (([⟨1, 0, 1, 0, 1⟩] : List ChildStats) ≠ []) ∧
    (ChanceNode.backup (fun _ _ _ => []) (1/2) 0 1 [⟨1, 0, 1, 0, 1⟩]).p_plus =
      (fun _ _ _ => ([] : List ℚ)) (ChanceNode.uTargets (1/2) [⟨1, 0, 1, 0, 1⟩])
        (ChanceNode.pHat 1 [⟨1, 0, 1, 0, 1⟩]) ((0 : ℚ) / 1) :=
  ⟨by simp,
   (chance_backup_to_root_spec (fun _ _ _ => []) (1/2) 0 1 [⟨1, 0, 1, 0, 1⟩] (by simp)).2.1⟩

/-! ### C7 — `MDPGapE.allocate_budget` -/

/-- C7: with `horizon_from_accuracy` set, the horizon is
`ceil(log(accuracy * (1 - gamma) / 2) / log(gamma))` (embedded as
`MDPGapE.horizon_from_accuracy` over `ℝ`), the episode count is
`budget // horizon`, and the assertion `episodes > 1` fails exactly when
this yields fewer than 2 episodes. -/
theorem allocate_budget_spec :
    (∀ budget horizon : ℕ,
      ((MDPGapE.allocate_budget budget horizon).isOk = false ↔ budget / horizon < 2) ∧
      (∀ H E, MDPGapE.allocate_budget budget horizon = .ok (H, E) →
        H = horizon ∧ E = budget / horizon ∧ 2 ≤ E)) ∧
    (∀ (accuracy gamma : ℝ) (budget : ℕ),
      ((MDPGapE.allocate_budget_from_accuracy accuracy gamma budget).isOk = false ↔
        budget / (MDPGapE.horizon_from_accuracy accuracy gamma).toNat < 2)) := by
  have key : ∀ budget horizon : ℕ,
      ((MDPGapE.allocate_budget budget horizon).isOk = false ↔ budget / horizon < 2) := by
    intro budget horizon
    unfold MDPGapE.allocate_budget
    by_cases h : 1 < budget / horizon
    · simp [h, Except.isOk, Except.toBool]
      omega
    · simp [h, Except.isOk, Except.toBool]
      omega
  refine ⟨fun budget horizon => ⟨key budget horizon, ?_⟩,
    fun accuracy gamma budget => key budget _⟩
  intro H E hok
  unfold MDPGapE.allocate_budget at hok
  by_cases h : 1 < budget / horizon
  · rw [if_pos h] at hok
    injection hok with hok
    obtain ⟨rfl, rfl⟩ : H = horizon ∧ E = budget / horizon := by
      constructor <;> [exact (congrArg Prod.fst hok).symm; exact (congrArg Prod.snd hok).symm]
    exact ⟨rfl, rfl, by omega⟩
  · rw [if_neg h] at hok
    exact absurd hok (by simp)

/-- Witness for C7 at `budget = 4`, `horizon = 2`. -/
theorem allocate_budget_spec_witness :
    MDPGapE.allocate_budget 4 2 = .ok (2, 2) ∧ (2 = 2 ∧ 2 = 4 / 2 ∧ 2 ≤ 2) :=
  ⟨rfl, (allocate_budget_spec.1 4 2).2 2 2 rfl⟩

/-! ### C4 — termination of `MDPGapE.plan` -/

theorem planLoop_spec (episodes : ℕ) (stop : ℕ → Bool) :
    ∀ (fuel e : ℕ), episodes + 2 ≤ fuel + e → e ≤ episodes + 1 →
      1 ≤ MDPGapE.planLoop episodes stop fuel e ∧
      MDPGapE.planLoop episodes stop fuel e + e ≤ episodes + 2 ∧
      (∀ k, k + 1 < MDPGapE.planLoop episodes stop fuel e →
        (stop (e + k) = false ∧ e + k ≤ episodes)) ∧
      (stop (e + MDPGapE.planLoop episodes stop fuel e - 1) = true ∨
        episodes < e + MDPGapE.planLoop episodes stop fuel e - 1) := by
  intro fuel
  induction fuel with
  | zero => intro e hfe he; omega
  | succ fuel ih =>
    intro e hfe he
    by_cases h : (stop e || decide (episodes < e)) = true
    · have hL : MDPGapE.planLoop episodes stop (fuel + 1) e = 1 := by
        simp [MDPGapE.planLoop, h]
      rw [hL]
      refine ⟨le_refl _, by omega, fun k hk => by omega, ?_⟩
      simp only [Nat.add_sub_cancel]
      rcases Bool.or_eq_true_iff.mp h with h' | h'
      · exact Or.inl h'
      · exact Or.inr (of_decide_eq_true h')
    · have hs : stop e = false := by
        rcases Bool.or_eq_false_iff.mp (Bool.not_eq_true _ |>.mp h) with ⟨h1, _⟩
        exact h1
      have hle : e ≤ episodes := by
        rcases Bool.or_eq_false_iff.mp (Bool.not_eq_true _ |>.mp h) with ⟨_, h2⟩
        simpa using of_decide_eq_false h2
      have hL : MDPGapE.planLoop episodes stop (fuel + 1) e =
          1 + MDPGapE.planLoop episodes stop fuel (e + 1) := by
        simp [MDPGapE.planLoop, h]
      obtain ⟨ih1, ih2, ih3, ih4⟩ := ih (e + 1) (by omega) (by omega)
      rw [hL]
      refine ⟨by omega, by omega, ?_, ?_⟩
      · intro k hk
        cases k with
        | zero => exact ⟨by simpa using hs, by simpa using hle⟩
        | succ k' =>
          have := ih3 k' (by omega)
          constructor
          · have heq : e + 1 + k' = e + (k' + 1) := by omega
            rw [← heq]; exact this.1
          · omega
      · have heq : e + (1 + MDPGapE.planLoop episodes stop fuel (e + 1)) - 1 =
            e + 1 + MDPGapE.planLoop episodes stop fuel (e + 1) - 1 := by omega
        rw [heq]
        exact ih4

/-- C4 counterexample: with a configured episode count of 0 and a stopping
rule that never fires, `plan` simulates 2 episodes — the loop guard
`episode > episodes` is checked against the pre-increment counter, so the
number of simulated episodes exceeds the configured episode count (by two).
The claim "the number of simulated episodes never exceeds the configured
episode count" is therefore false. -/
theorem plan_episode_count_cex :
    MDPGapE.planEpisodes 0 (fun _ => false) = 2 ∧
    ¬(MDPGapE.planEpisodes 0 (fun _ => false) ≤ 0) := by decide

/-- C4 (amended): `plan` halts exactly when, after a simulated episode, the
stopping rule `challenger.value - best.value_lower < accuracy` held (`stop`),
or the pre-increment episode counter exceeds the configured `episodes`; at
least one and at most `episodes + 2` episodes are simulated (so the episode
count can exceed the configured count by up to two, but no more); every
earlier episode ended with the stopping rule false and the counter within
budget; and the returned recommendation is the best candidate's first
action. -/
theorem plan_episode_count (episodes : ℕ) (stop : ℕ → Bool) :
    1 ≤ MDPGapE.planEpisodes episodes stop ∧
    MDPGapE.planEpisodes episodes stop ≤ episodes + 2 ∧
    (∀ k, k + 1 < MDPGapE.planEpisodes episodes stop →
      (stop k = false ∧ k ≤ episodes)) ∧
    (stop (MDPGapE.planEpisodes episodes stop - 1) = true ∨
      episodes < MDPGapE.planEpisodes episodes stop - 1) ∧
    (∀ (children : List (ℕ × Bounds)) s b c,
      DecisionNode.best_arm_identification_selection children = some (s, b, c) →
      MDPGapE.get_plan children = some [b.1]) := by
  obtain ⟨h1, h2, h3, h4⟩ := planLoop_spec episodes stop (episodes + 2) 0 (by omega) (by omega)
  unfold MDPGapE.planEpisodes
  refine ⟨h1, by omega, ?_, ?_, ?_⟩
  · intro k hk
    simpa using h3 k hk
  · simpa using h4
  · intro children s b c hsel
    simp [MDPGapE.get_plan, hsel]

/-- Witness for C4 at `episodes = 1` and a stopping rule firing at episode
index 1. -/
theorem plan_episode_count_witness :
    (0 + 1 < MDPGapE.planEpisodes 1 (fun e => decide (e = 1))) ∧
    ((fun e : ℕ => decide (e = 1)) 0 = false ∧ 0 ≤ 1) :=
  ⟨by decide, (plan_episode_count 1 (fun e => decide (e = 1))).2.2.1 0 (by decide)⟩

/-! ### C8 — non-root action selection in the episode loop -/

/-- C8 counterexample: at a non-root decision node with two children of equal
upper value bound, the episode loop's selection
(`max(children.items(), key=...)`) deterministically picks the first child in
insertion order; action 1 is never selected.  The claim that ties among
maximal children are broken uniformly at random is therefore false for the
episode-simulation loop (random tie-breaking, `random_argmax`, is used only
in `selection_rule`). -/
theorem ucb_action_tie_cex :
    MDPGapE.ucb_action [(0, ⟨1, 0⟩), (1, ⟨1, 0⟩)] = some 0 ∧
    MDPGapE.ucb_action [(0, ⟨1, 0⟩), (1, ⟨1, 0⟩)] ≠ some 1 := by decide

/-- C8 (amended): at every non-root decision node with children, the episode
loop selects an action whose child chance node attains the greatest current
upper value bound; ties among maximal children are broken deterministically
in favor of the first such entry in insertion order (every earlier entry has
a strictly smaller value). -/
theorem ucb_action_spec (children : List (ℕ × Bounds)) (hne : children ≠ []) :
    ∃ (a : ℕ) (v : Bounds) (pre post : List (ℕ × Bounds)),
      MDPGapE.ucb_action children = some a ∧
      children = pre ++ (a, v) :: post ∧
      (∀ c ∈ children, c.2.value ≤ v.value) ∧
      (∀ c ∈ pre, c.2.value < v.value) := by
  obtain ⟨x, hx⟩ := Option.isSome_iff_exists.mp
    (@pyMaxBy_isSome (ℕ × Bounds) ℚ _ (fun c => c.2.value) children hne)
  obtain ⟨pre, post, hsplit, hpre⟩ := pyMaxBy_first hx
  refine ⟨x.1, x.2, pre, post, ?_, ?_, ?_, ?_⟩
  · simp [MDPGapE.ucb_action, hx]
  · simpa using hsplit
  · exact fun c hc => pyMaxBy_le hx c hc
  · exact fun c hc => hpre c hc

/-- Witness for C8 at a two-child node with distinct values. -/
theorem ucb_action_spec_witness :
    (([(3, ⟨5, 0⟩), (7, ⟨2, 0⟩)] : List (ℕ × Bounds)) ≠ []) ∧
    (∃ (a : ℕ) (v : Bounds) (pre post : List (ℕ × Bounds)),
      MDPGapE.ucb_action [(3, ⟨5, 0⟩), (7, ⟨2, 0⟩)] = some a ∧
      ([(3, ⟨5, 0⟩), (7, ⟨2, 0⟩)] : List (ℕ × Bounds)) = pre ++ (a, v) :: post ∧
      (∀ c ∈ ([(3, ⟨5, 0⟩), (7, ⟨2, 0⟩)] : List (ℕ × Bounds)), c.2.value ≤ v.value) ∧
      (∀ c ∈ pre, c.2.value < v.value)) :=
  ⟨by simp, ucb_action_spec [(3, ⟨5, 0⟩), (7, ⟨2, 0⟩)] (by simp)⟩

/-! ### C10 — `DecisionNode.get_child` action substitution -/

/-- C10: `DecisionNode.get_child(action, state)` expands a childless node
first; when the requested action is among the children keys it returns that
child together with the requested action; when it is not, it silently
substitutes the first available action, returning that first child and the
substituted action, and never fails; consequently the action actually
executed in the simulator can differ from the action chosen by the selection
rule (concrete final conjunct: requesting action 5 of a node whose only
child is keyed 3 executes action 3). -/
theorem decision_get_child_spec :
    (∀ (children : List (ℕ × ℕ)) (actions : List ℕ) (action : ℕ),
      children ≠ [] ∨ actions ≠ [] →
      ∃ node used, DecisionNode.get_child children actions action = some (node, used) ∧
        (let cs := if children.isEmpty then DecisionNode.expand actions else children
         lookupKey used cs = some node ∧
         ((lookupKey action cs).isSome → used = action) ∧
         (lookupKey action cs = none → cs.head?.map Prod.fst = some used))) ∧
    (DecisionNode.get_child [(3, 30)] [] 5 = some (30, 3) ∧ (5 : ℕ) ≠ 3) := by
  constructor
  · intro children actions action hne
    have hcs : (if children.isEmpty then DecisionNode.expand actions else children) ≠ [] := by
      match children, hne with
      | [], Or.inl h => exact absurd rfl h
      | [], Or.inr h =>
        simpa [DecisionNode.expand] using h
      | c :: t, _ => simp
    set cs := if children.isEmpty then DecisionNode.expand actions else children with hcsdef
    match hlk : lookupKey action cs with
    | some n =>
      refine ⟨n, action, ?_, ?_⟩
      · simp only [DecisionNode.get_child, ← hcsdef, hlk]
      · exact ⟨hlk, fun _ => rfl, fun hn => absurd hlk (hn ▸ by simp)⟩
    | none =>
      match cs, hcs, hlk with
      | (a0, n0) :: rest, _, hlk =>
        refine ⟨n0, a0, ?_, ?_⟩
        · simp only [DecisionNode.get_child, ← hcsdef, hlk]
        · refine ⟨by rw [lookupKey_cons]; simp, fun hsome => ?_, fun _ => rfl⟩
          rw [hlk] at hsome
          simp at hsome
  · exact ⟨rfl, by decide⟩

/-- Witness for C10: requesting a missing action at a node with a single
child keyed 3 returns that child with the substituted action 3. -/
theorem decision_get_child_spec_witness :
    (([(3, 30)] : List (ℕ × ℕ)) ≠ [] ∨ ([] : List ℕ) ≠ []) ∧
    (∃ node used, DecisionNode.get_child [(3, 30)] [] 5 = some (node, used) ∧
      (let cs := if ([(3, 30)] : List (ℕ × ℕ)).isEmpty then DecisionNode.expand [] else [(3, 30)]
       lookupKey used cs = some node ∧
       ((lookupKey 5 cs).isSome → used = 5) ∧
       (lookupKey 5 cs = none → cs.head?.map Prod.fst = some used))) :=
  ⟨Or.inl (by simp), decision_get_child_spec.1 [(3, 30)] [] 5 (Or.inl (by simp))⟩

/-! ### C1 — best-arm identification at the root -/

/-- C1: at the root, every child's gap is the running maximum over the other
children of `other.value - child.value_lower`; the returned triple
`(selected, best, challenger)` satisfies: the best candidate minimizes the
gap over all children; the challenger is, among children other than the best
candidate, one of greatest upper value; and the selected arm is whichever of
the two has the larger interval width `value - value_lower`.  (Children are
the root's distinct chance-node objects, modelled as key-indexed pairs with
pairwise-distinct keys.) -/
theorem best_arm_identification_selection_spec (children : List (ℕ × Bounds))
    (hnd : (children.map Prod.fst).Nodup) (h2 : 2 ≤ children.length) :
    ∃ (s b c : ℕ × Bounds),
      DecisionNode.best_arm_identification_selection children = some (s, b, c) ∧
      b ∈ children ∧
      (∀ x ∈ children,
        DecisionNode.child_gap (children.filter (fun o => o.1 ≠ b.1)) b.2 ≤
        DecisionNode.child_gap (children.filter (fun o => o.1 ≠ x.1)) x.2) ∧
      c ∈ children ∧ c.1 ≠ b.1 ∧
      (∀ x ∈ children, x.1 ≠ b.1 → x.2.value ≤ c.2.value) ∧
      (s = b ∨ s = c) ∧
      b.2.value - b.2.value_lower ≤ s.2.value - s.2.value_lower ∧
      c.2.value - c.2.value_lower ≤ s.2.value - s.2.value_lower := by
  have hne : children ≠ [] := by
    intro h; rw [h] at h2; simp at h2
  have hGne : DecisionNode.compute_children_gaps children ≠ [] := by
    intro h
    exact hne (by simpa [DecisionNode.compute_children_gaps] using h)
  obtain ⟨bg, hbg⟩ := Option.isSome_iff_exists.mp
    (@pyMinBy_isSome ((ℕ × Bounds) × WithBot ℚ) (WithBot ℚ) _ (fun g => g.2)
      (DecisionNode.compute_children_gaps children) hGne)
  have hbgmem := pyMinBy_mem hbg
  simp only [DecisionNode.compute_children_gaps] at hbgmem
  obtain ⟨x, hxmem, hxeq⟩ := List.mem_map.mp hbgmem
  rw [← hxeq] at hbg
  have hmin : ∀ y ∈ children,
      DecisionNode.child_gap (children.filter (fun o => o.1 ≠ x.1)) x.2 ≤
      DecisionNode.child_gap (children.filter (fun o => o.1 ≠ y.1)) y.2 := by
    intro y hy
    have hyG : (y, DecisionNode.child_gap (children.filter (fun o => o.1 ≠ y.1)) y.2) ∈
        DecisionNode.compute_children_gaps children := by
      simp only [DecisionNode.compute_children_gaps]
      exact List.mem_map.mpr ⟨y, hy, rfl⟩
    simpa using pyMinBy_le hbg _ hyG
  have hrival : ∃ y ∈ children, y.1 ≠ x.1 := by
    match children, hnd, h2 with
    | c1 :: c2 :: rest, hnd, _ =>
      have h12 : c1.1 ≠ c2.1 := by
        simp only [List.map_cons, List.nodup_cons, List.mem_cons] at hnd
        exact fun h => hnd.1 (Or.inl h)
      by_cases hc1 : c1.1 = x.1
      · exact ⟨c2, by simp, fun h => h12 (by rw [hc1, h])⟩
      · exact ⟨c1, by simp, hc1⟩
  have hfne : children.filter (fun o => o.1 ≠ x.1) ≠ [] := by
    obtain ⟨y, hy, hyne⟩ := hrival
    intro h
    have : y ∈ children.filter (fun o => o.1 ≠ x.1) :=
      List.mem_filter.mpr ⟨hy, by simpa using hyne⟩
    rw [h] at this
    simp at this
  obtain ⟨ch, hch⟩ := Option.isSome_iff_exists.mp
    (@pyMaxBy_isSome (ℕ × Bounds) ℚ _ (fun c => c.2.value)
      (children.filter (fun o => o.1 ≠ x.1)) hfne)
  have hchf := List.mem_filter.mp (pyMaxBy_mem hch)
  have hchmem : ch ∈ children := hchf.1
  have hchne : ch.1 ≠ x.1 := by simpa using hchf.2
  have hchmax : ∀ z ∈ children, z.1 ≠ x.1 → z.2.value ≤ ch.2.value := by
    intro z hz hzne
    exact pyMaxBy_le hch z (List.mem_filter.mpr ⟨hz, by simpa using hzne⟩)
  obtain ⟨s, hs⟩ := Option.isSome_iff_exists.mp
    (@pyMaxBy_isSome (ℕ × Bounds) ℚ _ (fun n => n.2.value - n.2.value_lower)
      [x, ch] (by simp))
  have hsmem : s = x ∨ s = ch := by
    have := pyMaxBy_mem hs
    simpa using this
  have hw1 : x.2.value - x.2.value_lower ≤ s.2.value - s.2.value_lower :=
    pyMaxBy_le hs x (by simp)
  have hw2 : ch.2.value - ch.2.value_lower ≤ s.2.value - s.2.value_lower :=
    pyMaxBy_le hs ch (by simp)
  refine ⟨s, x, ch, ?_, hxmem, hmin, hchmem, hchne, hchmax, hsmem, hw1, hw2⟩
  simp only [DecisionNode.best_arm_identification_selection, hbg, hch, hs]

/-- Witness for C1 at a concrete two-child root. -/
theorem best_arm_identification_selection_spec_witness :
    ((([(0, ⟨1, 0⟩), (1, ⟨1/2, 1/4⟩)] : List (ℕ × Bounds)).map Prod.fst).Nodup ∧
     2 ≤ ([(0, ⟨1, 0⟩), (1, ⟨1/2, 1/4⟩)] : List (ℕ × Bounds)).length) ∧
    (∃ (s b c : ℕ × Bounds),
      DecisionNode.best_arm_identification_selection
        [(0, ⟨1, 0⟩), (1, ⟨1/2, 1/4⟩)] = some (s, b, c) ∧
      b ∈ ([(0, ⟨1, 0⟩), (1, ⟨1/2, 1/4⟩)] : List (ℕ × Bounds)) ∧
      (∀ x ∈ ([(0, ⟨1, 0⟩), (1, ⟨1/2, 1/4⟩)] : List (ℕ × Bounds)),
        DecisionNode.child_gap
          (([(0, ⟨1, 0⟩), (1, ⟨1/2, 1/4⟩)] : List (ℕ × Bounds)).filter
            (fun o => o.1 ≠ b.1)) b.2 ≤
        DecisionNode.child_gap
          (([(0, ⟨1, 0⟩), (1, ⟨1/2, 1/4⟩)] : List (ℕ × Bounds)).filter
            (fun o => o.1 ≠ x.1)) x.2) ∧
      c ∈ ([(0, ⟨1, 0⟩), (1, ⟨1/2, 1/4⟩)] : List (ℕ × Bounds)) ∧ c.1 ≠ b.1 ∧
      (∀ x ∈ ([(0, ⟨1, 0⟩), (1, ⟨1/2, 1/4⟩)] : List (ℕ × Bounds)),
        x.1 ≠ b.1 → x.2.value ≤ c.2.value) ∧
      (s = b ∨ s = c) ∧
      b.2.value - b.2.value_lower ≤ s.2.value - s.2.value_lower ∧
      c.2.value - c.2.value_lower ≤ s.2.value - s.2.value_lower) :=
  ⟨⟨by decide, by decide⟩,
   best_arm_identification_selection_spec [(0, ⟨1, 0⟩), (1, ⟨1/2, 1/4⟩)]
     (by decide) (by decide)⟩

/-! ### C5 — soundness of the bound pair `value_lower ≤ value` -/

/-- C5: `value_lower ≤ value` holds at construction (where
`value = (1 - gamma^(horizon - depth)) / (1 - gamma)` and `value_lower = 0`,
for `0 ≤ gamma < 1`), is preserved by the decision-node Bellman backup when
all children satisfy it, is preserved by the chance-node backup when the
children's bounds are ordered and the oracle meets its contract (its result
improves on the feasible point `p_hat` for the maximized functional), and is
untouched by `update` on either node type. -/
theorem value_lower_le_value_invariant (gamma : ℚ) (horizon depth : ℕ)
    (oracle : List ℚ → List ℚ → ℚ → List ℚ) (tau : ℚ) (count : ℕ)
    (dchildren : List Bounds) (cchildren : List ChildStats)
    (hg0 : 0 ≤ gamma) (hg1 : gamma < 1)
    (hd : ∀ c ∈ dchildren, c.value_lower ≤ c.value)
    (hc : ∀ c ∈ cchildren, c.mu_lcb ≤ c.mu_ucb ∧ c.value_lower ≤ c.value)
    (hplus : dot (ChanceNode.pHat count cchildren) (ChanceNode.uTargets gamma cchildren) ≤
      dot (oracle (ChanceNode.uTargets gamma cchildren) (ChanceNode.pHat count cchildren)
            (tau / count))
          (ChanceNode.uTargets gamma cchildren))
    (hminus : dot (oracle ((ChanceNode.lTargets gamma cchildren).map (fun x => -x))
            (ChanceNode.pHat count cchildren) (tau / count))
          (ChanceNode.lTargets gamma cchildren) ≤
      dot (ChanceNode.pHat count cchildren) (ChanceNode.lTargets gamma cchildren)) :
    node_init_value_lower ≤ node_init_value gamma horizon depth ∧
    (DecisionNode.backup dchildren).value_lower ≤ (DecisionNode.backup dchildren).value ∧
    (ChanceNode.backup oracle gamma tau count cchildren).value_lower ≤
      (ChanceNode.backup oracle gamma tau count cchildren).value ∧
    (∀ (n : DecisionNodeState) r, (DecisionNode.update n r).value_lower = n.value_lower ∧
      (DecisionNode.update n r).value = n.value) ∧
    (∀ (n : ChanceNodeState) r d, (ChanceNode.update n r d).value_lower = n.value_lower ∧
      (ChanceNode.update n r d).value = n.value) := by
  refine ⟨?_, ?_, ?_, fun n r => ⟨rfl, rfl⟩, fun n r d => ⟨rfl, rfl⟩⟩
  · unfold node_init_value node_init_value_lower
    apply div_nonneg
    · rw [sub_nonneg]
      exact pow_le_one₀ hg0 hg1.le
    · rw [sub_nonneg]
      exact hg1.le
  · match dchildren, hd with
    | [], _ => simp [DecisionNode.backup]
    | c :: cs, hd =>
      simp only [DecisionNode.backup]
      exact foldl_max_le_foldl_max
        (fun x hx => (hd x (List.mem_cons_of_mem _ hx)))
        (hd c (List.mem_cons_self _ _))
  · have hmid : dot (ChanceNode.pHat count cchildren) (ChanceNode.lTargets gamma cchildren) ≤
        dot (ChanceNode.pHat count cchildren) (ChanceNode.uTargets gamma cchildren) := by
      unfold ChanceNode.pHat ChanceNode.lTargets ChanceNode.uTargets
      apply dot_map_le_dot_map
      · intro c _
        positivity
      · intro c hcmem
        have := hc c hcmem
        have hmul : gamma * c.value_lower ≤ gamma * c.value :=
          mul_le_mul_of_nonneg_left this.2 hg0
        linarith [this.1]
    calc (ChanceNode.backup oracle gamma tau count cchildren).value_lower
        = dot (oracle ((ChanceNode.lTargets gamma cchildren).map (fun x => -x))
            (ChanceNode.pHat count cchildren) (tau / count))
            (ChanceNode.lTargets gamma cchildren) := rfl
      _ ≤ dot (ChanceNode.pHat count cchildren) (ChanceNode.lTargets gamma cchildren) := hminus
      _ ≤ dot (ChanceNode.pHat count cchildren) (ChanceNode.uTargets gamma cchildren) := hmid
      _ ≤ dot (oracle (ChanceNode.uTargets gamma cchildren)
            (ChanceNode.pHat count cchildren) (tau / count))
            (ChanceNode.uTargets gamma cchildren) := hplus
      _ = (ChanceNode.backup oracle gamma tau count cchildren).value := rfl

/-- Witness for C5 with the identity oracle (which returns the reference
distribution itself and hence meets the contract with equality) at a
concrete one-child configuration. -/
theorem value_lower_le_value_invariant_witness :
    ((0 : ℚ) ≤ 1/2 ∧ (1/2 : ℚ) < 1 ∧
     (∀ c ∈ ([⟨1, 0⟩] : List Bounds), c.value_lower ≤ c.value) ∧
     (∀ c ∈ ([⟨1, 0, 1, 0, 1⟩] : List ChildStats), c.mu_lcb ≤ c.mu_ucb ∧
        c.value_lower ≤ c.value) ∧
     dot (ChanceNode.pHat 1 [⟨1, 0, 1, 0, 1⟩])
         (ChanceNode.uTargets (1/2) [⟨1, 0, 1, 0, 1⟩]) ≤
       dot ((fun _ p _ => p) (ChanceNode.uTargets (1/2) [⟨1, 0, 1, 0, 1⟩])
            (ChanceNode.pHat 1 [⟨1, 0, 1, 0, 1⟩]) ((0 : ℚ) / 1))
           (ChanceNode.uTargets (1/2) [⟨1, 0, 1, 0, 1⟩]) ∧
     dot ((fun _ p _ => p)
            ((ChanceNode.lTargets (1/2) [⟨1, 0, 1, 0, 1⟩]).map (fun x => -x))
            (ChanceNode.pHat 1 [⟨1, 0, 1, 0, 1⟩]) ((0 : ℚ) / 1))
         (ChanceNode.lTargets (1/2) [⟨1, 0, 1, 0, 1⟩]) ≤
       dot (ChanceNode.pHat 1 [⟨1, 0, 1, 0, 1⟩])
           (ChanceNode.lTargets (1/2) [⟨1, 0, 1, 0, 1⟩])) ∧
    node_init_value_lower ≤ node_init_value (1/2) 2 1 :=
  ⟨⟨by norm_num, by norm_num, by decide, by decide, le_refl _, le_refl _⟩,
   (value_lower_le_value_invariant (1/2) 2 1 (fun _ p _ => p) 0 1
      [⟨1, 0⟩] [⟨1, 0, 1, 0, 1⟩] (by norm_num) (by norm_num) (by decide) (by decide)
      (le_refl _) (le_refl _)).1⟩

/-! ### C6 — placeholder capacity at chance nodes -/

theorem firstPlaceholder_some {children : List (CKey × ℕ)} :
    ∀ {idxs : List ℕ} {i node : ℕ},
      ChanceNode.firstPlaceholder children idxs = some (i, node) →
      lookupKey (CKey.placeholder i) children = some node ∧
      ∃ pre post, idxs = pre ++ i :: post ∧
        ∀ j ∈ pre, lookupKey (CKey.placeholder j) children = none := by
  intro idxs
  induction idxs with
  | nil => intro i node h; simp [ChanceNode.firstPlaceholder] at h
  | cons a t ih =>
    intro i node h
    simp only [ChanceNode.firstPlaceholder] at h
    cases hlk : lookupKey (CKey.placeholder a) children with
    | some n =>
      rw [hlk] at h
      simp only at h
      injection h with h
      obtain ⟨rfl, rfl⟩ : a = i ∧ n = node :=
        ⟨congrArg Prod.fst h, congrArg Prod.snd h⟩
      exact ⟨hlk, [], t, rfl, by simp⟩
    | none =>
      rw [hlk] at h
      simp only at h
      obtain ⟨h1, pre, post, hsplit, hpre⟩ := ih h
      refine ⟨h1, a :: pre, post, by simp [hsplit], ?_⟩
      intro j hj
      rcases List.mem_cons.mp hj with rfl | hj
      · exact hlk
      · exact hpre j hj

theorem firstPlaceholder_none {children : List (CKey × ℕ)} :
    ∀ {idxs : List ℕ}, ChanceNode.firstPlaceholder children idxs = none →
      ∀ i ∈ idxs, lookupKey (CKey.placeholder i) children = none := by
  intro idxs
  induction idxs with
  | nil => intro _ i hi; simp at hi
  | cons a t ih =>
    intro h i hi
    simp only [ChanceNode.firstPlaceholder] at h
    cases hlk : lookupKey (CKey.placeholder a) children with
    | some n =>
      rw [hlk] at h
      exact Option.noConfusion h
    | none =>
      rw [hlk] at h
      simp only at h
      rcases List.mem_cons.mp hi with rfl | hi
      · exact hlk
      · exact ih h i hi

theorem firstPlaceholder_none_of {children : List (CKey × ℕ)} :
    ∀ {idxs : List ℕ},
      (∀ i ∈ idxs, lookupKey (CKey.placeholder i) children = none) →
      ChanceNode.firstPlaceholder children idxs = none := by
  intro idxs
  induction idxs with
  | nil => intro _; rfl
  | cons a t ih =>
    intro h
    simp only [ChanceNode.firstPlaceholder]
    rw [h a (List.mem_cons_self _ _)]
    exact ih (fun i hi => h i (List.mem_cons_of_mem _ hi))

theorem nPlaceholders_filter_sub {i node : ℕ} :
    ∀ (children : List (CKey × ℕ)),
      (children.map Prod.fst).Nodup →
      lookupKey (CKey.placeholder i) children = some node →
      ChanceNode.nPlaceholders
        (children.filter (fun p => p.1 ≠ CKey.placeholder i)) + 1 =
        ChanceNode.nPlaceholders children := by
  intro children
  induction children with
  | nil => intro _ h; simp [lookupKey_nil] at h
  | cons a t ih =>
    intro hnd hlk
    rw [lookupKey_cons] at hlk
    simp only [List.map_cons, List.nodup_cons] at hnd
    by_cases ha : a.1 = CKey.placeholder i
    · have htnone : ∀ p ∈ t, p.1 ≠ CKey.placeholder i := by
        intro p hp h
        exact hnd.1 (List.mem_map.mpr ⟨p, hp, h.trans ha.symm⟩)
      have ht : t.filter (fun p => p.1 ≠ CKey.placeholder i) = t :=
        List.filter_eq_self.mpr (fun p hp => by simpa using htnone p hp)
      have hfa : (a :: t).filter (fun p => p.1 ≠ CKey.placeholder i) =
          t.filter (fun p => p.1 ≠ CKey.placeholder i) := by
        rw [List.filter_cons]
        simp [ha]
      rw [hfa, ht]
      simp only [ChanceNode.nPlaceholders, List.countP_cons, ha]
      simp
    · rw [if_neg ha] at hlk
      have hih := ih hnd.2 hlk
      have hfa : (a :: t).filter (fun p => p.1 ≠ CKey.placeholder i) =
          a :: t.filter (fun p => p.1 ≠ CKey.placeholder i) := by
        rw [List.filter_cons]
        simp [ha]
      rw [hfa]
      simp only [ChanceNode.nPlaceholders, List.countP_cons] at hih ⊢
      omega

/-- C6: `expand` reserves exactly `K` placeholder slots (keys
`placeholder_0 .. placeholder_(K-1)`, all counted as placeholders);
`get_child` reuses the existing child when the observed identity is already
a key; re-keys the first (least-index) remaining placeholder slot to a novel
identity, consuming exactly one placeholder; and fails with the
capacity-violation error — never merging into an existing child — exactly
when a novel identity arrives and no placeholder slot remains. -/
theorem chance_capacity_spec :
    (∀ K : ℕ, (ChanceNode.expand K).length = K ∧
      (ChanceNode.expand K).map Prod.fst = (List.range K).map CKey.placeholder ∧
      ChanceNode.nPlaceholders (ChanceNode.expand K) = K) ∧
    (∀ (K : ℕ) (children : List (CKey × ℕ)) (sid : String) (node : ℕ),
      children ≠ [] →
      lookupKey (CKey.state sid) children = some node →
      ChanceNode.get_child K children sid = .ok (children, node)) ∧
    (∀ (K : ℕ) (children : List (CKey × ℕ)) (sid : String),
      children ≠ [] →
      (children.map Prod.fst).Nodup →
      lookupKey (CKey.state sid) children = none →
      (∃ i, i < K ∧ (lookupKey (CKey.placeholder i) children).isSome) →
      ∃ i node, i < K ∧ lookupKey (CKey.placeholder i) children = some node ∧
        (∀ j, j < i → lookupKey (CKey.placeholder j) children = none) ∧
        ChanceNode.get_child K children sid =
          .ok (children.filter (fun p => p.1 ≠ CKey.placeholder i) ++
            [(CKey.state sid, node)], node) ∧
        ChanceNode.nPlaceholders
          (children.filter (fun p => p.1 ≠ CKey.placeholder i) ++
            [(CKey.state sid, node)]) + 1 =
          ChanceNode.nPlaceholders children) ∧
    (∀ (K : ℕ) (children : List (CKey × ℕ)) (sid : String),
      children ≠ [] →
      (∀ i, i < K → lookupKey (CKey.placeholder i) children = none) →
      lookupKey (CKey.state sid) children = none →
      ChanceNode.get_child K children sid =
        .error "No more placeholder nodes available, we observed more next states than the max_next_states_count config") := by
  refine ⟨?_, ?_, ?_, ?_⟩
  · intro K
    refine ⟨by simp [ChanceNode.expand], ?_, ?_⟩
    · simp [ChanceNode.expand, List.map_map]
    · have h1 : ChanceNode.nPlaceholders (ChanceNode.expand K) =
          List.countP (fun _ => true) (List.range K) := by
        simp only [ChanceNode.nPlaceholders, ChanceNode.expand, List.countP_map]
        rfl
      rw [h1, List.countP_true, List.length_range]
  · intro K children sid node hne hlk
    obtain ⟨c, t, rfl⟩ := List.exists_cons_of_ne_nil hne
    simp [ChanceNode.get_child, hlk]
  · intro K children sid hne hnd hnolk hex
    obtain ⟨c, t, rfl⟩ := List.exists_cons_of_ne_nil hne
    obtain ⟨iex, hiK, hisome⟩ := hex
    cases hfp : ChanceNode.firstPlaceholder (c :: t) (List.range K) with
    | none =>
      exfalso
      rw [firstPlaceholder_none hfp iex (List.mem_range.mpr hiK)] at hisome
      simp at hisome
    | some pair =>
      obtain ⟨i, node⟩ := pair
      obtain ⟨hlkp, pre, post, hsplit, hpre⟩ := firstPlaceholder_some hfp
      have hiK' : i < K := List.mem_range.mp (by
        rw [hsplit]
        exact List.mem_append_right _ (List.mem_cons_self _ _))
      have hleast : ∀ j, j < i → lookupKey (CKey.placeholder j) (c :: t) = none := by
        intro j hj
        have hjr : j ∈ List.range K := List.mem_range.mpr (hj.trans hiK')
        rw [hsplit] at hjr
        rcases List.mem_append.mp hjr with hjpre | hjtail
        · exact hpre j hjpre
        · exfalso
          have hpw := List.pairwise_lt_range K
          rw [hsplit] at hpw
          obtain ⟨_, hp2, _⟩ := List.pairwise_append.mp hpw
          rcases List.mem_cons.mp hjtail with rfl | hjpost
          · omega
          · have := (List.pairwise_cons.mp hp2).1 j hjpost
            omega
      have happ : ∀ X : List (CKey × ℕ),
          ChanceNode.nPlaceholders (X ++ [(CKey.state sid, node)]) =
          ChanceNode.nPlaceholders X := by
        intro X
        simp [ChanceNode.nPlaceholders, List.countP_append]
      refine ⟨i, node, hiK', hlkp, hleast, ?_, ?_⟩
      · simp [ChanceNode.get_child, hnolk, hfp]
      · rw [happ]
        exact nPlaceholders_filter_sub _ hnd hlkp
  · intro K children sid hne hall hnolk
    obtain ⟨c, t, rfl⟩ := List.exists_cons_of_ne_nil hne
    have hfp : ChanceNode.firstPlaceholder (c :: t) (List.range K) = none :=
      firstPlaceholder_none_of (fun i hi => hall i (List.mem_range.mp hi))
    simp [ChanceNode.get_child, hnolk, hfp]

/-- Witness for C6: a chance node with capacity 1 and one remaining
placeholder re-keys it for a novel observation. -/
theorem chance_capacity_spec_witness :
    (([(CKey.placeholder 0, 5)] : List (CKey × ℕ)) ≠ [] ∧
     (([(CKey.placeholder 0, 5)] : List (CKey × ℕ)).map Prod.fst).Nodup ∧
     lookupKey (CKey.state "s") [(CKey.placeholder 0, 5)] = none ∧
     (∃ i, i < 1 ∧ (lookupKey (CKey.placeholder i) [(CKey.placeholder 0, 5)]).isSome)) ∧
    (∃ i node, i < 1 ∧
      lookupKey (CKey.placeholder i) [(CKey.placeholder 0, 5)] = some node ∧
      (∀ j, j < i → lookupKey (CKey.placeholder j) [(CKey.placeholder 0, 5)] = none) ∧
      ChanceNode.get_child 1 [(CKey.placeholder 0, 5)] "s" =
        .ok (([(CKey.placeholder 0, 5)] : List (CKey × ℕ)).filter
            (fun p => p.1 ≠ CKey.placeholder i) ++ [(CKey.state "s", node)], node) ∧
      ChanceNode.nPlaceholders
        (([(CKey.placeholder 0, 5)] : List (CKey × ℕ)).filter
            (fun p => p.1 ≠ CKey.placeholder i) ++ [(CKey.state "s", node)]) + 1 =
        ChanceNode.nPlaceholders [(CKey.placeholder 0, 5)]) :=
  ⟨⟨by simp, by simp, rfl, ⟨0, by decide, rfl⟩⟩,
   chance_capacity_spec.2.2.1 1 [(CKey.placeholder 0, 5)] "s" (by simp) (by simp) rfl
     ⟨0, by decide, rfl⟩⟩
